import Mathlib

/-!
# Verification of the bulloak parsing core

A shallow embedding of the tree-parser pipeline: the token/AST data model,
the indentation-governed recursive-descent parser (`src/parser.rs`), and the
modifier discoverer (`src/modifiers.rs`), with theorems about their
behaviour.

The parser's mutable cursor (`Parser.current`, a `Cell<usize>`) becomes an
explicit index threaded through the functions; a Rust panic (`unwrap` on
`None`) becomes the dedicated result `PResult.panic`; recursion is bounded
by an explicit `fuel` argument, and a lemma shows the chosen initial fuel is
never exhausted, so the fuel is an artifact of the embedding, not of the
modelled code.
-/

namespace Bulloak

/-- Modelled from the spec: `Position` (src/span.rs is not among the provided
sources): byte offset, 1-based line and column. -/
structure Position where
  offset : Nat
  line : Nat
  column : Nat
deriving DecidableEq, Repr

/-- Modelled from the spec: `Span` (src/span.rs is not among the provided
sources): a start and end position. The Rust field `end` is a Lean keyword
and is called `stop` here. -/
structure Span where
  start : Position
  stop : Position
deriving DecidableEq, Repr

/-- Modelled from the spec: `TokenKind` (src/tokenizer.rs is not among the
provided sources): STRING, TEE, CORNER, WHEN, IT. -/
inductive TokenKind where
  | STRING
  | TEE
  | CORNER
  | WHEN
  | IT
deriving DecidableEq, Repr

/-- Modelled from the spec: `Token` (src/tokenizer.rs is not among the
provided sources): kind, matched text, span. -/
structure Token where
  kind : TokenKind
  lexeme : String
  span : Span
deriving DecidableEq, Repr

/-- Modelled from the spec: the `Ast` variants (src/ast.rs is not among the
provided sources): `Root { file_name, asts, span }`,
`Condition { title, asts, span }`, `Action { title, span }`. -/
inductive Ast where
  | Root (file_name : String) (asts : List Ast) (span : Span)
  | Condition (title : String) (asts : List Ast) (span : Span)
  | Action (title : String) (span : Span)

/-- `Ast::span()`: the span attached to any variant. -/
def Ast.span : Ast → Span
  | .Root _ _ s => s
  | .Condition _ _ s => s
  | .Action _ s => s

/-- `parser::ErrorKind` (src/parser.rs). `__Nonexhaustive` is never
constructed by the code; it is kept for fidelity. -/
inductive ErrorKind where
  | UnexpectedToken
  | UnexpectedWhen
  | UnexpectedIt
  | UnexpectedString
  | UnexpectedEof
  | Nonexhaustive
deriving DecidableEq, Repr

/-- `parser::Error` (src/parser.rs): kind, full source text, span. -/
structure Error where
  kind : ErrorKind
  text : String
  span : Span
deriving DecidableEq, Repr

/-- Result of a parser step. `ok`/`err` mirror Rust's `Result`; `panic`
models a Rust panic (`unwrap` on `None`); `fuelOut` is the artifact of the
fuel-bounded embedding and is proved unreachable for the initial fuel. -/
inductive PResult (α : Type) where
  | ok (a : α)
  | err (e : Error)
  | panic
  | fuelOut

/-- `ParserI::previous` (src/parser.rs): the token before cursor `i`, or
`none` at cursor 0. -/
def prevTok (tokens : List Token) (i : Nat) : Option Token :=
  if i = 0 then none else tokens.get? (i - 1)

/-- The token kinds `parse_string` space-joins into a title: the
`TokenKind::STRING | TokenKind::IT | TokenKind::WHEN` match arm of the loop
in `ParserI::parse_string` (src/parser.rs). -/
def isWordKind : TokenKind → Bool
  | .STRING | .IT | .WHEN => true
  | _ => false

/-- `ParserI::parse_string` (src/parser.rs): starting with the keyword's
lexeme `s` and the cursor `i` on the keyword token, repeatedly `consume`
tokens of kind STRING/IT/WHEN, space-joining their lexemes; stop at the
first token of another kind (cursor left on it) or at end of input.
Returns the title and the final cursor. -/
def parse_string (tokens : List Token) (i : Nat) (s : String) : String × Nat :=
  if tokens.length < i + 1 then
    (s, i)
  else
    match h : tokens.get? (i + 1) with
    | none => (s, i + 1)
    | some tok =>
      if isWordKind tok.kind then
        parse_string tokens (i + 1) (s ++ " " ++ tok.lexeme)
      else
        (s, i + 1)
termination_by tokens.length - i
decreasing_by
  have hlt : i + 1 < tokens.length := (List.get?_eq_some.mp h).1
  omega

mutual

/-- `ParserI::_parse` (src/parser.rs), with `ParserI::parse_root` inlined at
the STRING-at-cursor-0 branch. The cursor is the explicit index `i`. -/
def parseNode (text : String) (tokens : List Token) (fuel : Nat) (i : Nat) :
    PResult (Ast × Nat) :=
  match fuel with
  | 0 => .fuelOut
  | fuel + 1 =>
    match tokens.get? i with
    | none =>
      match tokens.getLast? with
      | none => .panic
      | some last => .err ⟨.UnexpectedEof, text, last.span⟩
    | some t =>
      match t.kind with
      | .STRING =>
        if i = 0 then
          -- `parse_root`: consume the file-name token, then collect children
          -- until the tokens are exhausted.
          match parseChildren text tokens fuel none 1 [] with
          | .ok (asts, k) =>
            let lastSpan :=
              match asts.getLast? with
              | some a => a.span
              | none => t.span
            .ok (.Root t.lexeme asts ⟨t.span.start, lastSpan.stop⟩, k)
          | .err e => .err e
          | .panic => .panic
          | .fuelOut => .fuelOut
        else
          .err ⟨.UnexpectedString, text, t.span⟩
      | .TEE | .CORNER =>
        match tokens.get? (i + 1) with
        | none =>
          match tokens.getLast? with
          | none => .panic
          | some last => .err ⟨.UnexpectedEof, text, last.span⟩
        | some next =>
          match next.kind with
          | .IT =>
            let p := parse_string tokens (i + 1) next.lexeme
            match prevTok tokens p.2 with
            | none => .panic
            | some prev => .ok (.Action p.1 ⟨t.span.start, prev.span.stop⟩, p.2)
          | .WHEN =>
            let p := parse_string tokens (i + 1) next.lexeme
            match parseChildren text tokens fuel (some t.span.start.column) p.2 [] with
            | .ok (asts, k) =>
              match prevTok tokens k with
              | none => .panic
              | some prev =>
                .ok (.Condition p.1 asts ⟨t.span.start, prev.span.stop⟩, k)
            | .err e => .err e
            | .panic => .panic
            | .fuelOut => .fuelOut
          | _ => .err ⟨.UnexpectedToken, text, t.span⟩
      | .WHEN => .err ⟨.UnexpectedWhen, text, t.span⟩
      | .IT => .err ⟨.UnexpectedIt, text, t.span⟩

/-- The child-collection loops of `_parse` (the `while` in the WHEN branch,
`col? = some c`) and of `parse_root` (`col? = none`): keep parsing nodes
while a current token exists and (in the WHEN case) its starting column is
strictly greater than `c`. -/
def parseChildren (text : String) (tokens : List Token) (fuel : Nat)
    (col? : Option Nat) (i : Nat) (acc : List Ast) : PResult (List Ast × Nat) :=
  match fuel with
  | 0 => .fuelOut
  | fuel + 1 =>
    let go : Bool :=
      match tokens.get? i with
      | none => false
      | some t =>
        match col? with
        | none => true
        | some c => decide (c < t.span.start.column)
    if go then
      match parseNode text tokens fuel i with
      | .ok (ast, j) => parseChildren text tokens fuel col? j (acc ++ [ast])
      | .err e => .err e
      | .panic => .panic
      | .fuelOut => .fuelOut
    else
      .ok (acc, i)

end

/-- Fuel sufficient for any parse of `tokens` (proved below). -/
def initialFuel (tokens : List Token) : Nat :=
  2 * tokens.length + 2

/-- `Parser::parse` (src/parser.rs): reset the cursor to 0 and run `_parse`. -/
def parse (text : String) (tokens : List Token) : PResult Ast :=
  match parseNode text tokens (initialFuel tokens) 0 with
  | .ok (ast, _) => .ok ast
  | .err e => .err e
  | .panic => .panic
  | .fuelOut => .fuelOut

/-- Helper for `split_whitespace`: scan the characters, `acc` holding the
current word reversed; whitespace finishes a word (if non-empty). -/
def splitWsAux : List Char → List Char → List String
  | [], [] => []
  | [], acc => [String.mk acc.reverse]
  | c :: cs, acc =>
    if c.isWhitespace then
      match acc with
      | [] => splitWsAux cs []
      | _ => String.mk acc.reverse :: splitWsAux cs []
    else
      splitWsAux cs (c :: acc)

/-- Rust's `str::split_whitespace` as used by `to_modifier`
(src/modifiers.rs): the non-empty maximal whitespace-free words. -/
def split_whitespace (s : String) : List String :=
  splitWsAux s.data []

/-- Modelled from the spec: `capitalize_first_letter` (src/utils.rs is not
among the provided sources): upper-case the first character, keep the rest
unchanged. -/
def capitalize_first_letter (s : String) : String :=
  match s.data with
  | [] => ""
  | c :: cs => String.mk (c.toUpper :: cs)

/-- Rust's `.collect::<String>()`: concatenation of a list of strings. -/
def strConcat (l : List String) : String :=
  l.foldr (· ++ ·) ""

/-- `to_modifier` (src/modifiers.rs): split the title on whitespace,
capitalize every word except the first, concatenate. -/
def to_modifier (title : String) : String :=
  strConcat (((split_whitespace title).enum).map
    (fun p => if 0 < p.1 then capitalize_first_letter p.2 else p.2))

/-- The discoverer's `HashMap<String, String>` modelled by its lookup
function; `insert` overwrites the previous binding of the key. -/
def HMap : Type := String → Option String

/-- `HashMap::new()`. -/
def HMap.empty : HMap := fun _ => none

/-- `HashMap::insert` (last write wins). -/
def HMap.insert (m : HMap) (k v : String) : HMap :=
  fun q => if q = k then some v else m q

/-- `ModifierDiscoverer::visit_condition` (src/modifiers.rs): record
`title → to_modifier title`. -/
def visit_condition (m : HMap) (title : String) : HMap :=
  m.insert title (to_modifier title)

/-- `ModifierDiscoverer::visit_root` (src/modifiers.rs): visit each
immediate child that is a Condition; everything else is skipped. -/
def visit_root (m : HMap) (asts : List Ast) : HMap :=
  asts.foldl
    (fun m a =>
      match a with
      | .Condition title _ _ => visit_condition m title
      | _ => m)
    m

/-- `ModifierDiscoverer::discover` (src/modifiers.rs): on a Root visit it;
on any other variant the Rust code panics (`unreachable!()`), modelled as
`none`. -/
def discover (ast : Ast) : Option HMap :=
  match ast with
  | .Root _ asts _ => some (visit_root HMap.empty asts)
  | _ => none

/-- Whether some immediate child is a Condition titled `k`. -/
def hasConditionTitled (k : String) (asts : List Ast) : Bool :=
  asts.any fun a =>
    match a with
    | .Condition t _ _ => decide (t = k)
    | _ => false

/-! ### Concrete fixtures

Token sequences used to evaluate the parser at specific inputs. -/

/-- A token sequence that starts with a connector: `CORNER` then `IT`. The
real tokenizer always emits the first line as a STRING, but the parser is
specified over arbitrary token sequences. -/
def topActionTokens : List Token :=
  [⟨.CORNER, "L", ⟨⟨0, 1, 1⟩, ⟨0, 1, 1⟩⟩⟩,
   ⟨.IT, "it", ⟨⟨4, 1, 5⟩, ⟨5, 1, 6⟩⟩⟩]

/-- A file-name token at column 5 followed by a connector line at column 1:
the root's child starts at a *smaller* column than the root token. -/
def shallowRootTokens : List Token :=
  [⟨.STRING, "f", ⟨⟨0, 1, 5⟩, ⟨0, 1, 5⟩⟩⟩,
   ⟨.CORNER, "L", ⟨⟨2, 2, 1⟩, ⟨2, 2, 1⟩⟩⟩,
   ⟨.IT, "it", ⟨⟨6, 2, 5⟩, ⟨7, 2, 6⟩⟩⟩]

/-- The child node `parse` produces from `shallowRootTokens`. -/
def shallowChild : Ast :=
  .Action "it" ⟨⟨2, 2, 1⟩, ⟨7, 2, 6⟩⟩

/-- The root node `parse` produces from `shallowRootTokens`. -/
def shallowRoot : Ast :=
  .Root "f" [shallowChild] ⟨⟨0, 1, 5⟩, ⟨7, 2, 6⟩⟩

/-- The file-name token of the repository's `test_only_filename` test. -/
def fooToken : Token :=
  ⟨.STRING, "foo", ⟨⟨0, 1, 1⟩, ⟨2, 1, 3⟩⟩⟩

/-- A root-only input: a single STRING token. -/
def rootOnlyTokens : List Token :=
  [fooToken]

/-- A connector-WHEN line with one nested connector-IT line. -/
def condTokens : List Token :=
  [⟨.CORNER, "L", ⟨⟨0, 1, 1⟩, ⟨0, 1, 1⟩⟩⟩,
   ⟨.WHEN, "when", ⟨⟨4, 1, 5⟩, ⟨7, 1, 8⟩⟩⟩,
   ⟨.CORNER, "L", ⟨⟨12, 2, 4⟩, ⟨12, 2, 4⟩⟩⟩,
   ⟨.IT, "it", ⟨⟨16, 2, 8⟩, ⟨17, 2, 9⟩⟩⟩]

/-- Tokens exercising each error dispatch arm. -/
def c7Tokens : List Token :=
  [⟨.WHEN, "when", ⟨⟨0, 1, 1⟩, ⟨3, 1, 4⟩⟩⟩,
   ⟨.STRING, "s", ⟨⟨5, 1, 6⟩, ⟨5, 1, 6⟩⟩⟩,
   ⟨.TEE, "T", ⟨⟨7, 1, 8⟩, ⟨7, 1, 8⟩⟩⟩,
   ⟨.CORNER, "L", ⟨⟨9, 1, 10⟩, ⟨9, 1, 10⟩⟩⟩,
   ⟨.IT, "it", ⟨⟨11, 1, 12⟩, ⟨12, 1, 13⟩⟩⟩]

/-- A single connector token with nothing after it. -/
def lonelyCorner : List Token :=
  [⟨.CORNER, "L", ⟨⟨0, 1, 1⟩, ⟨0, 1, 1⟩⟩⟩]

end Bulloak

namespace Bulloak

/-! ## Lemmas about `to_modifier` and the discoverer -/

/-- Indices in `enumFrom k` with `0 < k` are all positive, so every word
gets capitalized. -/
theorem enumFrom_map_cap (ws : List String) :
    ∀ k : Nat, 0 < k →
      (List.enumFrom k ws).map
        (fun p => if 0 < p.1 then capitalize_first_letter p.2 else p.2) =
      ws.map capitalize_first_letter := by
  induction ws with
  | nil => intro k _; rfl
  | cons w ws ih =>
    intro k hk
    simp only [List.enumFrom, List.map_cons, if_pos hk, ih (k + 1) (Nat.succ_pos k)]

/-- `to_modifier` keeps the first word verbatim, capitalizes the rest, and
concatenates. -/
theorem to_modifier_eq (title : String) :
    to_modifier title =
      match split_whitespace title with
      | [] => ""
      | w :: ws => w ++ strConcat (ws.map capitalize_first_letter) := by
  unfold to_modifier
  cases h : split_whitespace title with
  | nil => rfl
  | cons w ws =>
    show strConcat (((w :: ws).enum).map _) = _
    simp only [List.enum, List.enumFrom, List.map_cons]
    rw [enumFrom_map_cap ws 1 Nat.one_pos]
    rfl

/-- Functional characterization of `visit_root`'s fold: a key is bound iff
some immediate Condition child carries it, and then to its modifier. -/
theorem visit_root_eq (asts : List Ast) :
    ∀ (m : HMap) (k : String),
      visit_root m asts k =
        if hasConditionTitled k asts then some (to_modifier k) else m k := by
  induction asts with
  | nil => intro m k; rfl
  | cons a asts ih =>
    intro m k
    have hstep :
        visit_root m (a :: asts) =
          visit_root
            (match a with
             | .Condition title _ _ => visit_condition m title
             | _ => m) asts := by
      cases a <;> rfl
    rw [hstep, ih]
    cases a with
    | Condition title casts csp =>
      by_cases hk : title = k
      · subst hk
        simp [hasConditionTitled, visit_condition, HMap.insert]
      · have hk2 : ¬k = title := fun h => hk h.symm
        simp [hasConditionTitled, visit_condition, HMap.insert, hk, hk2]
    | Root n2 a2 s2 => simp [hasConditionTitled]
    | Action t2 s2 => simp [hasConditionTitled]

/-- `hasConditionTitled` in terms of membership. -/
theorem hasConditionTitled_iff (k : String) (asts : List Ast) :
    hasConditionTitled k asts = true ↔
      ∃ casts csp, Ast.Condition k casts csp ∈ asts := by
  unfold hasConditionTitled
  rw [List.any_eq_true]
  constructor
  · rintro ⟨a, ha, hfa⟩
    cases a with
    | Condition t c2 s2 =>
      have ht : t = k := by simpa using hfa
      subst ht
      exact ⟨c2, s2, ha⟩
    | Root n2 a2 s2 => simp at hfa
    | Action t2 s2 => simp at hfa
  · rintro ⟨casts, csp, hmem⟩
    exact ⟨Ast.Condition k casts csp, hmem, by simp⟩

end Bulloak

namespace Bulloak

/-! ## Characters, whitespace and idempotence of `to_modifier` -/

/-- `Char.ofNat` on a small valid codepoint keeps its numeric value. -/
theorem char_ofNat_toNat (m : Nat) (h : m < 55296) : (Char.ofNat m).toNat = m := by
  unfold Char.ofNat
  rw [dif_pos (Or.inl h)]
  rfl

/-- A character with codepoint at least 33 is not ASCII whitespace. -/
theorem not_ws_of_33 (x : Char) (h : 33 ≤ x.toNat) : x.isWhitespace = false := by
  have hs : ¬x = ' ' := fun hx => by
    subst hx
    have : (' ' : Char).toNat = 32 := rfl
    omega
  have ht : ¬x = '\t' := fun hx => by
    subst hx
    have : ('\t' : Char).toNat = 9 := rfl
    omega
  have hr : ¬x = '\r' := fun hx => by
    subst hx
    have : ('\r' : Char).toNat = 13 := rfl
    omega
  have hn : ¬x = '\n' := fun hx => by
    subst hx
    have : ('\n' : Char).toNat = 10 := rfl
    omega
  simp [Char.isWhitespace, hs, ht, hr, hn]

/-- Upper-casing cannot turn a character into whitespace or out of it. -/
theorem toUpper_isWhitespace (c : Char) :
    (Char.toUpper c).isWhitespace = c.isWhitespace := by
  by_cases h : c.toNat ≥ 97 ∧ c.toNat ≤ 122
  · have hru : Char.toUpper c = Char.ofNat (c.toNat - 32) := by
      simp only [Char.toUpper]
      rw [if_pos h]
    have h1 : (Char.ofNat (c.toNat - 32)).toNat = c.toNat - 32 :=
      char_ofNat_toNat _ (by omega)
    rw [hru, not_ws_of_33 _ (by omega), not_ws_of_33 c (by omega)]
  · have hru : Char.toUpper c = c := by
      simp only [Char.toUpper]
      rw [if_neg h]
    rw [hru]

/-- Every word produced by `splitWsAux` is whitespace-free. -/
theorem splitWsAux_no_ws :
    ∀ (cs acc : List Char), (∀ c ∈ acc, c.isWhitespace = false) →
      ∀ w ∈ splitWsAux cs acc, ∀ c ∈ w.data, c.isWhitespace = false := by
  intro cs
  induction cs with
  | nil =>
    intro acc hacc w hw c hc
    cases acc with
    | nil => simp [splitWsAux] at hw
    | cons a as =>
      simp [splitWsAux] at hw
      subst hw
      have hc2 : c ∈ as.reverse ++ [a] := hc
      rcases List.mem_append.mp hc2 with h1 | h1
      · exact hacc c (List.mem_cons_of_mem a (List.mem_reverse.mp h1))
      · have hca : c = a := by simpa using h1
        subst hca
        exact hacc c (List.mem_cons_self c as)
  | cons x xs ih =>
    intro acc hacc w hw c hc
    by_cases hx : x.isWhitespace
    · cases acc with
      | nil =>
        rw [show splitWsAux (x :: xs) [] = splitWsAux xs [] by
          simp [splitWsAux, hx]] at hw
        exact ih [] (by simp) w hw c hc
      | cons a as =>
        rw [show splitWsAux (x :: xs) (a :: as) =
            String.mk (a :: as).reverse :: splitWsAux xs [] by
          simp [splitWsAux, hx]] at hw
        rcases List.mem_cons.mp hw with rfl | hw2
        · exact hacc c (List.mem_reverse.mp hc)
        · exact ih [] (by simp) w hw2 c hc
    · rw [show splitWsAux (x :: xs) acc = splitWsAux xs (x :: acc) by
        simp [splitWsAux, hx]] at hw
      refine ih (x :: acc) ?_ w hw c hc
      intro d hd
      rcases List.mem_cons.mp hd with rfl | hd2
      · simpa using hx
      · exact hacc d hd2

/-- On an entirely whitespace-free character list, `splitWsAux` returns the
single remaining word (or nothing when there is none). -/
theorem splitWsAux_all_nonws :
    ∀ (cs acc : List Char), (∀ c ∈ cs, c.isWhitespace = false) →
      splitWsAux cs acc =
        if acc.reverse ++ cs = [] then [] else [String.mk (acc.reverse ++ cs)] := by
  intro cs
  induction cs with
  | nil =>
    intro acc _
    cases acc with
    | nil => rfl
    | cons a as => simp [splitWsAux]
  | cons x xs ih =>
    intro acc hcs
    have hx : x.isWhitespace = false := hcs x (List.mem_cons_self x xs)
    rw [show splitWsAux (x :: xs) acc = splitWsAux xs (x :: acc) by
      simp [splitWsAux, hx]]
    rw [ih (x :: acc) (fun c hc => hcs c (List.mem_cons_of_mem x hc))]
    simp

/-- `split_whitespace` of a whitespace-free string: empty list for the empty
string, the string itself otherwise. -/
theorem split_whitespace_nonws (s : String)
    (h : ∀ c ∈ s.data, c.isWhitespace = false) :
    split_whitespace s = if s.data = [] then [] else [s] := by
  unfold split_whitespace
  rw [splitWsAux_all_nonws s.data [] h]
  cases s with
  | mk data => simp

/-- `capitalize_first_letter` preserves whitespace-freeness. -/
theorem capitalize_no_ws (w : String)
    (h : ∀ c ∈ w.data, c.isWhitespace = false) :
    ∀ c ∈ (capitalize_first_letter w).data, c.isWhitespace = false := by
  unfold capitalize_first_letter
  cases hw : w.data with
  | nil => simp
  | cons c cs =>
    intro x hx
    simp at hx
    rcases hx with rfl | hx2
    · rw [toUpper_isWhitespace]
      exact h c (by rw [hw]; exact List.mem_cons_self c cs)
    · exact h x (by rw [hw]; exact List.mem_cons_of_mem c hx2)

/-- Concatenation preserves whitespace-freeness. -/
theorem strConcat_no_ws :
    ∀ (l : List String), (∀ w ∈ l, ∀ c ∈ w.data, c.isWhitespace = false) →
      ∀ c ∈ (strConcat l).data, c.isWhitespace = false := by
  intro l
  induction l with
  | nil => intro _ c hc; simp [strConcat] at hc
  | cons w ws ih =>
    intro h c hc
    have : strConcat (w :: ws) = w ++ strConcat ws := rfl
    rw [this, String.data_append] at hc
    rcases List.mem_append.mp hc with hc1 | hc2
    · exact h w (List.mem_cons_self w ws) c hc1
    · exact ih (fun u hu => h u (List.mem_cons_of_mem w hu)) c hc2

/-- The second component of anything in `enumFrom` is in the list. -/
theorem mem_of_mem_enumFrom {α : Type} :
    ∀ (l : List α) (n : Nat) (p : Nat × α), p ∈ List.enumFrom n l → p.2 ∈ l := by
  intro l
  induction l with
  | nil => intro n p hp; simp [List.enumFrom] at hp
  | cons a as ih =>
    intro n p hp
    rcases List.mem_cons.mp hp with rfl | hp2
    · exact List.mem_cons_self a as
    · exact List.mem_cons_of_mem a (ih (n + 1) p hp2)

/-- The output of `to_modifier` never contains whitespace. -/
theorem to_modifier_no_ws (title : String) :
    ∀ c ∈ (to_modifier title).data, c.isWhitespace = false := by
  unfold to_modifier
  apply strConcat_no_ws
  intro w hw
  rcases List.mem_map.mp hw with ⟨p, hp, rfl⟩
  have hword : p.2 ∈ split_whitespace title := mem_of_mem_enumFrom _ 0 p hp
  have hnw : ∀ c ∈ p.2.data, c.isWhitespace = false :=
    splitWsAux_no_ws title.data [] (by simp) p.2 hword
  by_cases h0 : 0 < p.1
  · simpa [h0] using capitalize_no_ws p.2 hnw
  · simpa [h0] using hnw

end Bulloak

namespace Bulloak

/-- A string whose character list is empty is the empty string. -/
theorem eq_empty_of_data_nil (t : String) (h : t.data = []) : t = "" := by
  cases t with
  | mk d =>
    have hd : d = [] := h
    subst hd
    rfl

/-- Appending the empty string on the right is the identity. -/
theorem str_append_empty (a : String) : a ++ "" = a := by
  cases a with
  | mk d =>
    show String.mk (d ++ []) = String.mk d
    rw [List.append_nil]

/-- C3: `to_modifier` splits the title on whitespace into words, keeps the
first word verbatim, upper-cases the first character of every subsequent
word (rest unchanged), and concatenates with no separators; in particular
the three documented examples hold. -/
theorem c3_to_modifier_spec :
    to_modifier "when only owner" = "whenOnlyOwner" ∧
    to_modifier "when" = "when" ∧
    to_modifier "" = "" ∧
    ∀ title : String,
      to_modifier title =
        match split_whitespace title with
        | [] => ""
        | w :: ws => w ++ strConcat (ws.map capitalize_first_letter) :=
  ⟨by decide, by decide, by decide, to_modifier_eq⟩

/-- C4: on a Root, `discover` succeeds and its mapping binds exactly the
titles of the Root's immediate Condition children, each to its generated
modifier; nested children are not visited and immediate Action children
contribute nothing. -/
theorem c4_discover_spec (name : String) (asts : List Ast) (sp : Span) :
    ∃ m, discover (.Root name asts sp) = some m ∧
      ∀ k v, m k = some v ↔
        (∃ casts csp, Ast.Condition k casts csp ∈ asts) ∧ v = to_modifier k := by
  refine ⟨_, rfl, ?_⟩
  intro k v
  rw [visit_root_eq asts HMap.empty k]
  by_cases h : hasConditionTitled k asts
  · rw [if_pos h]
    constructor
    · intro h2
      have hv : to_modifier k = v := Option.some.inj h2
      exact ⟨(hasConditionTitled_iff k asts).mp h, hv.symm⟩
    · rintro ⟨_, rfl⟩
      rfl
  · rw [if_neg h]
    constructor
    · intro h2
      exact Option.noConfusion h2
    · rintro ⟨hex, _⟩
      exact absurd ((hasConditionTitled_iff k asts).mpr hex) h

/-- C10: `to_modifier` is idempotent: its output has no whitespace, so a
second application splits it into at most one word, kept verbatim. -/
theorem c10_to_modifier_idempotent (s : String) :
    to_modifier (to_modifier s) = to_modifier s := by
  have hnw := to_modifier_no_ws s
  rw [to_modifier_eq (to_modifier s), split_whitespace_nonws (to_modifier s) hnw]
  by_cases h0 : (to_modifier s).data = []
  · rw [if_pos h0]
    exact (eq_empty_of_data_nil _ h0).symm
  · rw [if_neg h0]
    show to_modifier s ++ strConcat ([].map capitalize_first_letter) = to_modifier s
    exact str_append_empty _

end Bulloak
namespace Bulloak

/-! ## The title loop: `parse_string` -/

/-- One-step unfolding of `parse_string`. -/
theorem parse_string_eq (tokens : List Token) (k : Nat) (s : String) :
    parse_string tokens k s =
      if tokens.length < k + 1 then (s, k)
      else
        match tokens.get? (k + 1) with
        | none => (s, k + 1)
        | some tok =>
          if isWordKind tok.kind then
            parse_string tokens (k + 1) (s ++ " " ++ tok.lexeme)
          else (s, k + 1) := by
  rw [parse_string.eq_def]
  split
  · rfl
  · split
    next heq => rw [heq]
    next tok heq => rw [heq]

/-- Behaviour of `parse_string` from cursor `k`: the cursor strictly
advances and stays in bounds, the tokens strictly between `k` and the final
cursor are exactly a run of word-kind tokens, the token at the final cursor
(if any) is not word-kind, and the title is the start string followed by the
space-joined lexemes of the consumed run. -/
theorem parse_string_spec (tokens : List Token) :
    ∀ (d k : Nat) (s : String), tokens.length - k ≤ d → k < tokens.length →
      k < (parse_string tokens k s).2 ∧
      (parse_string tokens k s).2 ≤ tokens.length ∧
      (∀ m, k < m → m < (parse_string tokens k s).2 →
        ∃ tok, tokens.get? m = some tok ∧ isWordKind tok.kind = true) ∧
      (∀ tok, tokens.get? (parse_string tokens k s).2 = some tok →
        isWordKind tok.kind = false) ∧
      (parse_string tokens k s).1 =
        s ++ strConcat
          (((tokens.drop (k + 1)).take ((parse_string tokens k s).2 - (k + 1))).map
            (fun tok => " " ++ tok.lexeme)) := by
  intro d
  induction d with
  | zero => intro k s hd hk; omega
  | succ d ih =>
    intro k s hd hk
    have hnl : ¬tokens.length < k + 1 := by omega
    rw [parse_string_eq, if_neg hnl]
    cases hm : tokens.get? (k + 1) with
    | none =>
      dsimp only
      have hlen : tokens.length ≤ k + 1 := List.get?_eq_none.mp hm
      refine ⟨Nat.lt_succ_self k, by omega, ?_, ?_, ?_⟩
      · intro m h1 h2
        omega
      · intro tok htok
        rw [hm] at htok
        exact Option.noConfusion htok
      · have hnil :
            ((tokens.drop (k + 1)).take (k + 1 - (k + 1))).map
              (fun tok => " " ++ tok.lexeme) = [] := by
          simp
        rw [hnil]
        exact (str_append_empty s).symm
    | some tok =>
      dsimp only
      have hm2 : tokens[k+1]? = some tok := by
        rw [← List.get?_eq_getElem?]
        exact hm
      obtain ⟨hlt, hg⟩ := List.getElem?_eq_some_iff.mp hm2
      by_cases hw : isWordKind tok.kind
      · rw [if_pos hw]
        obtain ⟨h1, h2, h3, h4, h5⟩ := ih (k + 1) (s ++ " " ++ tok.lexeme) (by omega) hlt
        refine ⟨by omega, h2, ?_, h4, ?_⟩
        · intro m hm1 hm2
          by_cases hmk : m = k + 1
          · subst hmk
            exact ⟨tok, hm, hw⟩
          · exact h3 m (by omega) hm2
        · rw [h5]
          have hdrop : tokens.drop (k + 1) = tok :: tokens.drop (k + 2) := by
            rw [List.drop_eq_getElem_cons hlt, hg]
          have hj : (parse_string tokens (k + 1) (s ++ " " ++ tok.lexeme)).2 - (k + 1) =
              ((parse_string tokens (k + 1) (s ++ " " ++ tok.lexeme)).2 - (k + 2)) + 1 := by
            omega
          rw [hdrop, hj, List.take_succ_cons, List.map_cons]
          simp only [strConcat, List.foldr_cons]
          simp [String.append_assoc]
      · rw [if_neg hw]
        refine ⟨Nat.lt_succ_self k, by omega, ?_, ?_, ?_⟩
        · intro m h1 h2
          omega
        · intro tok2 htok2
          rw [hm] at htok2
          have heq2 : tok = tok2 := Option.some.inj htok2
          subst heq2
          exact Bool.eq_false_iff.mpr hw
        · have hnil :
            ((tokens.drop (k + 1)).take (k + 1 - (k + 1))).map
              (fun tok => " " ++ tok.lexeme) = [] := by
            simp
          rw [hnil]
          exact (str_append_empty s).symm

end Bulloak
namespace Bulloak

/-! ## Branch equations of `parseNode` and `parseChildren` -/

/-- `_parse` with no current token and a non-empty stream: EOF error at the
last token. -/
theorem parseNode_eof {text : String} {tokens : List Token} {fuel i : Nat} {last : Token}
    (hgi : tokens.get? i = none) (hgl : tokens.getLast? = some last) :
    parseNode text tokens (fuel + 1) i = .err ⟨.UnexpectedEof, text, last.span⟩ := by
  unfold parseNode
  rw [hgi]
  dsimp only
  rw [hgl]

/-- A STRING at a cursor other than 0: `UnexpectedString` at its span. -/
theorem parseNode_err_string {text : String} {tokens : List Token} {fuel i : Nat} {t : Token}
    (hgi : tokens.get? i = some t) (hk : t.kind = .STRING) (hne : i ≠ 0) :
    parseNode text tokens (fuel + 1) i = .err ⟨.UnexpectedString, text, t.span⟩ := by
  unfold parseNode
  rw [hgi]
  dsimp only
  rw [hk]
  dsimp only
  rw [if_neg hne]

/-- A WHEN where a connector was expected: `UnexpectedWhen` at its span. -/
theorem parseNode_err_when {text : String} {tokens : List Token} {fuel i : Nat} {t : Token}
    (hgi : tokens.get? i = some t) (hk : t.kind = .WHEN) :
    parseNode text tokens (fuel + 1) i = .err ⟨.UnexpectedWhen, text, t.span⟩ := by
  unfold parseNode
  rw [hgi]
  dsimp only
  rw [hk]

/-- An IT where a connector was expected: `UnexpectedIt` at its span. -/
theorem parseNode_err_it {text : String} {tokens : List Token} {fuel i : Nat} {t : Token}
    (hgi : tokens.get? i = some t) (hk : t.kind = .IT) :
    parseNode text tokens (fuel + 1) i = .err ⟨.UnexpectedIt, text, t.span⟩ := by
  unfold parseNode
  rw [hgi]
  dsimp only
  rw [hk]

/-- Input ends right after a connector: EOF error at the last token. -/
theorem parseNode_conn_eof {text : String} {tokens : List Token} {fuel i : Nat}
    {t last : Token}
    (hgi : tokens.get? i = some t) (hk : t.kind = .TEE ∨ t.kind = .CORNER)
    (hnext : tokens.get? (i + 1) = none) (hgl : tokens.getLast? = some last) :
    parseNode text tokens (fuel + 1) i = .err ⟨.UnexpectedEof, text, last.span⟩ := by
  unfold parseNode
  rw [hgi]
  dsimp only
  rcases hk with hk | hk <;> rw [hk] <;> dsimp only <;> rw [hnext] <;> dsimp only <;>
    rw [hgl]

/-- A non-keyword after a connector: `UnexpectedToken` at the connector's
span. -/
theorem parseNode_err_token {text : String} {tokens : List Token} {fuel i : Nat}
    {t next : Token}
    (hgi : tokens.get? i = some t) (hk : t.kind = .TEE ∨ t.kind = .CORNER)
    (hnext : tokens.get? (i + 1) = some next)
    (h1 : next.kind ≠ .IT) (h2 : next.kind ≠ .WHEN) :
    parseNode text tokens (fuel + 1) i = .err ⟨.UnexpectedToken, text, t.span⟩ := by
  unfold parseNode
  rw [hgi]
  dsimp only
  rcases hk with hk | hk <;> rw [hk] <;> dsimp only <;> rw [hnext] <;> dsimp only <;>
    cases hnk : next.kind <;> first
      | exact absurd hnk h1
      | exact absurd hnk h2
      | rfl

/-- The `parse_root` branch: STRING at cursor 0. -/
theorem parseNode_string0_eq {text : String} {tokens : List Token} {fuel : Nat} {t : Token}
    (hgi : tokens.get? 0 = some t) (hk : t.kind = .STRING) :
    parseNode text tokens (fuel + 1) 0 =
      match parseChildren text tokens fuel none 1 [] with
      | .ok (asts, k) =>
        .ok (.Root t.lexeme asts
          ⟨t.span.start,
            (match asts.getLast? with
             | some a => a.span
             | none => t.span).stop⟩, k)
      | .err e => .err e
      | .panic => .panic
      | .fuelOut => .fuelOut := by
  unfold parseNode
  rw [hgi]
  dsimp only
  rw [hk]
  dsimp only
  rw [if_pos rfl]

/-- The Action branch: connector then IT. -/
theorem parseNode_conn_it_eq {text : String} {tokens : List Token} {fuel i : Nat}
    {t next : Token}
    (hgi : tokens.get? i = some t) (hk : t.kind = .TEE ∨ t.kind = .CORNER)
    (hnext : tokens.get? (i + 1) = some next) (hnk : next.kind = .IT) :
    parseNode text tokens (fuel + 1) i =
      match prevTok tokens (parse_string tokens (i + 1) next.lexeme).2 with
      | none => .panic
      | some prev =>
        .ok (.Action (parse_string tokens (i + 1) next.lexeme).1
          ⟨t.span.start, prev.span.stop⟩, (parse_string tokens (i + 1) next.lexeme).2) := by
  unfold parseNode
  rw [hgi]
  dsimp only
  rcases hk with hk | hk <;> rw [hk] <;> dsimp only <;> rw [hnext] <;> dsimp only <;>
    rw [hnk]

/-- The Condition branch: connector then WHEN. -/
theorem parseNode_conn_when_eq {text : String} {tokens : List Token} {fuel i : Nat}
    {t next : Token}
    (hgi : tokens.get? i = some t) (hk : t.kind = .TEE ∨ t.kind = .CORNER)
    (hnext : tokens.get? (i + 1) = some next) (hnk : next.kind = .WHEN) :
    parseNode text tokens (fuel + 1) i =
      match parseChildren text tokens fuel (some t.span.start.column)
          (parse_string tokens (i + 1) next.lexeme).2 [] with
      | .ok (asts, k) =>
        match prevTok tokens k with
        | none => .panic
        | some prev =>
          .ok (.Condition (parse_string tokens (i + 1) next.lexeme).1 asts
            ⟨t.span.start, prev.span.stop⟩, k)
      | .err e => .err e
      | .panic => .panic
      | .fuelOut => .fuelOut := by
  unfold parseNode
  rw [hgi]
  dsimp only
  rcases hk with hk | hk <;> rw [hk] <;> dsimp only <;> rw [hnext] <;> dsimp only <;>
    rw [hnk]

/-- One-step unfolding of the child-collection loop. -/
theorem parseChildren_eq (text : String) (tokens : List Token) (fuel : Nat)
    (col? : Option Nat) (i : Nat) (acc : List Ast) :
    parseChildren text tokens (fuel + 1) col? i acc =
      if (match tokens.get? i with
          | none => false
          | some t =>
            match col? with
            | none => true
            | some c => decide (c < t.span.start.column)) then
        match parseNode text tokens fuel i with
        | .ok (ast, j) => parseChildren text tokens fuel col? j (acc ++ [ast])
        | .err e => .err e
        | .panic => .panic
        | .fuelOut => .fuelOut
      else
        .ok (acc, i) := rfl

end Bulloak

namespace Bulloak

/-! ## Inversion lemmas for successful parses -/

/-- A successful parse producing an Action came from a connector-then-IT
branch; its span runs from the connector to the token before the final
cursor. -/
theorem parseNode_ok_action {text : String} {tokens : List Token} {fuel i : Nat}
    {title : String} {sp : Span} {j : Nat}
    (h : parseNode text tokens fuel i = .ok (.Action title sp, j)) :
    ∃ t prev, tokens.get? i = some t ∧ (t.kind = .TEE ∨ t.kind = .CORNER) ∧
      prevTok tokens j = some prev ∧ sp = ⟨t.span.start, prev.span.stop⟩ := by
  cases fuel with
  | zero => simp [parseNode] at h
  | succ fuel =>
    unfold parseNode at h
    repeat' split at h
    any_goals cases h
    all_goals dsimp only at h
    all_goals (repeat' split at h)
    any_goals cases h
    all_goals
      rename_i x4 t ht x3 hk x2 next hnext x1 hnk x0 prev hprev
      first
        | exact ⟨t, prev, ht, Or.inl hk, hprev, rfl⟩
        | exact ⟨t, prev, ht, Or.inr hk, hprev, rfl⟩

/-- A successful parse producing a Condition came from a connector-then-WHEN
branch; its children come from the column-guarded loop and its span runs
from the connector to the token before the final cursor. -/
theorem parseNode_ok_condition {text : String} {tokens : List Token} {fuel i : Nat}
    {title : String} {asts : List Ast} {sp : Span} {j : Nat}
    (h : parseNode text tokens fuel i = .ok (.Condition title asts sp, j)) :
    ∃ t next prev fuel', tokens.get? i = some t ∧
      (t.kind = .TEE ∨ t.kind = .CORNER) ∧
      tokens.get? (i + 1) = some next ∧ next.kind = .WHEN ∧ fuel = fuel' + 1 ∧
      parseChildren text tokens fuel' (some t.span.start.column)
        (parse_string tokens (i + 1) next.lexeme).2 [] = .ok (asts, j) ∧
      prevTok tokens j = some prev ∧ sp = ⟨t.span.start, prev.span.stop⟩ := by
  cases fuel with
  | zero => simp [parseNode] at h
  | succ fuel =>
    unfold parseNode at h
    repeat' split at h
    any_goals cases h
    all_goals dsimp only at h
    all_goals (repeat' split at h)
    any_goals cases h
    all_goals
      rename_i x5 t ht x4 hk x3 next hnext x2 hnk x1 x0 prev hprev hpc
      first
        | exact ⟨t, next, prev, fuel, ht, Or.inl hk, hnext, hnk, rfl, hpc, hprev, rfl⟩
        | exact ⟨t, next, prev, fuel, ht, Or.inr hk, hnext, hnk, rfl, hpc, hprev, rfl⟩

end Bulloak
namespace Bulloak

/-- A successful parse producing a Root came from the STRING-at-cursor-0
branch; its children come from the unguarded loop started at cursor 1. -/
theorem parseNode_ok_root {text : String} {tokens : List Token} {fuel i : Nat}
    {name : String} {asts : List Ast} {sp : Span} {j : Nat}
    (h : parseNode text tokens fuel i = .ok (.Root name asts sp, j)) :
    i = 0 ∧ ∃ t fuel', tokens.get? 0 = some t ∧ t.kind = .STRING ∧
      name = t.lexeme ∧ fuel = fuel' + 1 ∧
      parseChildren text tokens fuel' none 1 [] = .ok (asts, j) ∧
      sp.start = t.span.start := by
  cases fuel with
  | zero => simp [parseNode] at h
  | succ fuel =>
    unfold parseNode at h
    repeat' split at h
    any_goals cases h
    all_goals try dsimp only at h
    all_goals try (repeat' split at h)
    any_goals cases h
    all_goals
      first
        | (rename_i x3 t ht x2 hk hi0 x1 x0 a hlast hpc
           exact ⟨hi0, t, fuel, hi0 ▸ ht, hk, rfl, rfl, hpc, rfl⟩)
        | (rename_i x3 t ht x2 hk hi0 x1 x0 hlast hpc
           exact ⟨hi0, t, fuel, hi0 ▸ ht, hk, rfl, rfl, hpc, rfl⟩)

end Bulloak
namespace Bulloak

/-- Every node a successful `parseNode` call returns has its span starting
at the current token's start. -/
theorem parseNode_ok_start {text : String} {tokens : List Token} {fuel i : Nat}
    {ast : Ast} {j : Nat}
    (h : parseNode text tokens fuel i = .ok (ast, j)) :
    ∃ t, tokens.get? i = some t ∧ (Ast.span ast).start = t.span.start := by
  cases ast with
  | Root name asts sp =>
    obtain ⟨hi0, t, fuel', ht, -, -, -, -, hsp⟩ := parseNode_ok_root h
    exact ⟨t, by rw [hi0]; exact ht, hsp⟩
  | Condition title asts sp =>
    obtain ⟨t, next, prev, fuel', ht, -, -, -, -, -, -, hsp⟩ := parseNode_ok_condition h
    exact ⟨t, ht, by subst hsp; rfl⟩
  | Action title sp =>
    obtain ⟨t, prev, ht, -, -, hsp⟩ := parseNode_ok_action h
    exact ⟨t, ht, by subst hsp; rfl⟩

/-- The root child loop (no column guard) stops only at end of input. -/
theorem parseChildren_none_end {text : String} {tokens : List Token} :
    ∀ (fuel : Nat), ∀ {i : Nat} {acc l : List Ast} {k : Nat},
      parseChildren text tokens fuel none i acc = .ok (l, k) →
      tokens.get? k = none := by
  intro fuel
  induction fuel with
  | zero => intro i acc l k h; simp [parseChildren] at h
  | succ fuel ih =>
    intro i acc l k h
    rw [parseChildren_eq] at h
    cases hgi : tokens.get? i with
    | none =>
      rw [hgi] at h
      dsimp only at h
      cases h
      exact hgi
    | some t =>
      rw [hgi] at h
      dsimp only at h
      rw [if_pos rfl] at h
      split at h
      · exact ih h
      · cases h
      · cases h
      · cases h

/-- The column-guarded child loop only collects nodes starting strictly
right of `c`, and stops at end of input or at the first token at column
≤ `c`. -/
theorem parseChildren_cols {text : String} {tokens : List Token} {c : Nat} :
    ∀ (fuel : Nat), ∀ {i : Nat} {acc l : List Ast} {k : Nat},
      parseChildren text tokens fuel (some c) i acc = .ok (l, k) →
      (∀ a ∈ acc, c < (Ast.span a).start.column) →
      (∀ a ∈ l, c < (Ast.span a).start.column) ∧
      (tokens.get? k = none ∨
        ∃ u, tokens.get? k = some u ∧ u.span.start.column ≤ c) := by
  intro fuel
  induction fuel with
  | zero => intro i acc l k h hacc; simp [parseChildren] at h
  | succ fuel ih =>
    intro i acc l k h hacc
    rw [parseChildren_eq] at h
    cases hgi : tokens.get? i with
    | none =>
      rw [hgi] at h
      dsimp only at h
      cases h
      exact ⟨hacc, Or.inl hgi⟩
    | some t =>
      rw [hgi] at h
      dsimp only at h
      by_cases hcol : c < t.span.start.column
      · rw [if_pos (by simpa using hcol)] at h
        split at h
        · rename_i ast j hpn
          refine ih h ?_
          intro a ha
          rcases List.mem_append.mp ha with ha1 | ha2
          · exact hacc a ha1
          · obtain ⟨u, hu, hustart⟩ := parseNode_ok_start hpn
            have hut : u = t := Option.some.inj (hu.symm.trans hgi)
            have ha3 : a = ast := by simpa using ha2
            rw [ha3, hustart, hut]
            exact hcol
        · cases h
        · cases h
        · cases h
      · rw [if_neg (by simpa using hcol)] at h
        cases h
        exact ⟨hacc, Or.inr ⟨t, hgi, by omega⟩⟩

end Bulloak
namespace Bulloak

/-! ## Totality: with the initial fuel, a parse of a non-empty token
sequence always returns `ok` or `err` - never a panic and never fuel
exhaustion. -/

/-- Master induction: with enough fuel, `parseNode` and `parseChildren`
return `ok` (with a strictly advanced, in-bounds cursor) or `err`. -/
theorem parse_total_aux :
    ∀ (fuel : Nat) (text : String) (tokens : List Token) (i : Nat),
      tokens ≠ [] → i ≤ tokens.length →
      (2 * (tokens.length - i) + 2 ≤ fuel →
        (∃ ast j, parseNode text tokens fuel i = .ok (ast, j) ∧
          i < j ∧ j ≤ tokens.length) ∨
        (∃ e, parseNode text tokens fuel i = .err e)) ∧
      (∀ (col? : Option Nat) (acc : List Ast), 2 * (tokens.length - i) + 3 ≤ fuel →
        (∃ l k, parseChildren text tokens fuel col? i acc = .ok (l, k) ∧
          i ≤ k ∧ k ≤ tokens.length) ∨
        (∃ e, parseChildren text tokens fuel col? i acc = .err e)) := by
  intro fuel
  induction fuel using Nat.strong_induction_on with
  | _ fuel IH =>
    intro text tokens i hne hi
    constructor
    · intro hfuel
      obtain ⟨f, rfl⟩ : ∃ f, fuel = f + 1 := ⟨fuel - 1, by omega⟩
      cases hgi : tokens.get? i with
      | none =>
        cases hgl : tokens.getLast? with
        | none => exact absurd (List.getLast?_eq_none_iff.mp hgl) hne
        | some last => exact Or.inr ⟨_, parseNode_eof hgi hgl⟩
      | some t =>
        have hilt : i < tokens.length := (List.get?_eq_some.mp hgi).1
        have connCase : (t.kind = .TEE ∨ t.kind = .CORNER) →
            (∃ ast j, parseNode text tokens (f + 1) i = .ok (ast, j) ∧
              i < j ∧ j ≤ tokens.length) ∨
            (∃ e, parseNode text tokens (f + 1) i = .err e) := by
          intro hk
          cases hgn : tokens.get? (i + 1) with
          | none =>
            cases hgl : tokens.getLast? with
            | none => exact absurd (List.getLast?_eq_none_iff.mp hgl) hne
            | some last => exact Or.inr ⟨_, parseNode_conn_eof hgi hk hgn hgl⟩
          | some next =>
            have hnlt : i + 1 < tokens.length := (List.get?_eq_some.mp hgn).1
            cases hnk : next.kind with
            | IT =>
              obtain ⟨hj1, hj2, -, -, -⟩ :=
                parse_string_spec tokens tokens.length (i + 1) next.lexeme
                  (by omega) hnlt
              have hjne : ¬(parse_string tokens (i + 1) next.lexeme).2 = 0 := by omega
              have hjm : (parse_string tokens (i + 1) next.lexeme).2 - 1 <
                  tokens.length := by omega
              have hprev : prevTok tokens (parse_string tokens (i + 1) next.lexeme).2 =
                  some (tokens.get ⟨(parse_string tokens (i + 1) next.lexeme).2 - 1, hjm⟩) := by
                unfold prevTok
                rw [if_neg hjne]
                exact List.get?_eq_get hjm
              have heq : parseNode text tokens (f + 1) i =
                  .ok (.Action (parse_string tokens (i + 1) next.lexeme).1
                    ⟨t.span.start,
                      (tokens.get ⟨(parse_string tokens (i + 1) next.lexeme).2 - 1,
                        hjm⟩).span.stop⟩,
                    (parse_string tokens (i + 1) next.lexeme).2) := by
                rw [parseNode_conn_it_eq hgi hk hgn hnk, hprev]
              exact Or.inl ⟨_, _, heq, by omega, by omega⟩
            | WHEN =>
              obtain ⟨hj1, hj2, -, -, -⟩ :=
                parse_string_spec tokens tokens.length (i + 1) next.lexeme
                  (by omega) hnlt
              have hf : 2 * (tokens.length -
                  (parse_string tokens (i + 1) next.lexeme).2) + 3 ≤ f := by omega
              rcases (IH f (by omega) text tokens
                  (parse_string tokens (i + 1) next.lexeme).2 hne (by omega)).2
                  (some t.span.start.column) [] hf with
                ⟨l, k, hpc, hk1, hk2⟩ | ⟨e, hpc⟩
              · have hkne : ¬k = 0 := by omega
                have hkm : k - 1 < tokens.length := by omega
                have hprev : prevTok tokens k = some (tokens.get ⟨k - 1, hkm⟩) := by
                  unfold prevTok
                  rw [if_neg hkne]
                  exact List.get?_eq_get hkm
                have heq : parseNode text tokens (f + 1) i =
                    .ok (.Condition (parse_string tokens (i + 1) next.lexeme).1 l
                      ⟨t.span.start, (tokens.get ⟨k - 1, hkm⟩).span.stop⟩, k) := by
                  rw [parseNode_conn_when_eq hgi hk hgn hnk, hpc]
                  dsimp only
                  rw [hprev]
                exact Or.inl ⟨_, _, heq, by omega, hk2⟩
              · refine Or.inr ⟨e, ?_⟩
                rw [parseNode_conn_when_eq hgi hk hgn hnk, hpc]
            | STRING =>
              exact Or.inr ⟨_, parseNode_err_token hgi hk hgn
                (by rw [hnk]; decide) (by rw [hnk]; decide)⟩
            | TEE =>
              exact Or.inr ⟨_, parseNode_err_token hgi hk hgn
                (by rw [hnk]; decide) (by rw [hnk]; decide)⟩
            | CORNER =>
              exact Or.inr ⟨_, parseNode_err_token hgi hk hgn
                (by rw [hnk]; decide) (by rw [hnk]; decide)⟩
        cases hkt : t.kind with
        | STRING =>
          by_cases hi0 : i = 0
          · subst hi0
            have hlen1 : 1 ≤ tokens.length := by omega
            have hf : 2 * (tokens.length - 1) + 3 ≤ f := by omega
            rcases (IH f (by omega) text tokens 1 hne hlen1).2 none [] hf with
              ⟨l, k, hpc, h1k, hklen⟩ | ⟨e, hpc⟩
            · have heq : parseNode text tokens (f + 1) 0 =
                  .ok (.Root t.lexeme l
                    ⟨t.span.start,
                      (match l.getLast? with
                       | some a => a.span
                       | none => t.span).stop⟩, k) := by
                rw [parseNode_string0_eq hgi hkt, hpc]
              exact Or.inl ⟨_, _, heq, by omega, hklen⟩
            · refine Or.inr ⟨e, ?_⟩
              rw [parseNode_string0_eq hgi hkt, hpc]
          · exact Or.inr ⟨_, parseNode_err_string hgi hkt hi0⟩
        | TEE => exact connCase (Or.inl hkt)
        | CORNER => exact connCase (Or.inr hkt)
        | WHEN => exact Or.inr ⟨_, parseNode_err_when hgi hkt⟩
        | IT => exact Or.inr ⟨_, parseNode_err_it hgi hkt⟩
    · intro col? acc hfuel
      obtain ⟨f, rfl⟩ : ∃ f, fuel = f + 1 := ⟨fuel - 1, by omega⟩
      rw [parseChildren_eq]
      cases hgi : tokens.get? i with
      | none =>
        exact Or.inl ⟨acc, i, rfl, Nat.le_refl i, hi⟩
      | some t =>
        have hilt : i < tokens.length := (List.get?_eq_some.mp hgi).1
        have step : (∃ l k,
              (match parseNode text tokens f i with
                | .ok (ast, j) => parseChildren text tokens f col? j (acc ++ [ast])
                | .err e => .err e
                | .panic => .panic
                | .fuelOut => .fuelOut) = .ok (l, k) ∧ i ≤ k ∧ k ≤ tokens.length) ∨
            (∃ e, (match parseNode text tokens f i with
                | .ok (ast, j) => parseChildren text tokens f col? j (acc ++ [ast])
                | .err e => .err e
                | .panic => .panic
                | .fuelOut => .fuelOut) = .err e) := by
          have hf : 2 * (tokens.length - i) + 2 ≤ f := by omega
          rcases (IH f (by omega) text tokens i hne (by omega)).1 hf with
            ⟨ast, j, hpn, hij, hjlen⟩ | ⟨e, hpn⟩
          · rw [hpn]
            dsimp only
            have hf2 : 2 * (tokens.length - j) + 3 ≤ f := by omega
            rcases (IH f (by omega) text tokens j hne hjlen).2 col? (acc ++ [ast]) hf2 with
              ⟨l, k, hpc, hjk, hklen⟩ | ⟨e, hpc⟩
            · exact Or.inl ⟨l, k, hpc, by omega, hklen⟩
            · exact Or.inr ⟨e, hpc⟩
          · rw [hpn]
            exact Or.inr ⟨e, rfl⟩
        cases col? with
        | none =>
          dsimp only
          rw [if_pos rfl]
          exact step
        | some c =>
          by_cases hcol : c < t.span.start.column
          · dsimp only
            rw [if_pos (by simpa using hcol)]
            exact step
          · dsimp only
            rw [if_neg (by simpa using hcol)]
            exact Or.inl ⟨acc, i, rfl, Nat.le_refl i, hi⟩

end Bulloak
namespace Bulloak

/-! ## Claim theorems -/

/-- C9: for every non-empty token sequence and every source text, `parse`
is total: it returns an Ast value or an Error value and never panics (the
embedded `previous().unwrap()` / `tokens.last().unwrap()` never hit `none`),
and the chosen fuel never runs out. -/
theorem c9_parse_total (text : String) (tokens : List Token) (hne : tokens ≠ []) :
    (∃ ast, parse text tokens = .ok ast) ∨ (∃ e, parse text tokens = .err e) := by
  have h := (parse_total_aux (initialFuel tokens) text tokens 0 hne (Nat.zero_le _)).1
    (by unfold initialFuel; omega)
  rcases h with ⟨ast, j, hpn, -, -⟩ | ⟨e, hpn⟩
  · exact Or.inl ⟨ast, by unfold parse; rw [hpn]⟩
  · exact Or.inr ⟨e, by unfold parse; rw [hpn]⟩

/-- Witness for C9 at a concrete non-empty token sequence. -/
theorem c9_witness :
    rootOnlyTokens ≠ [] ∧
    ((∃ ast, parse "foo" rootOnlyTokens = .ok ast) ∨
      (∃ e, parse "foo" rootOnlyTokens = .err e)) :=
  ⟨by decide, c9_parse_total "foo" rootOnlyTokens (by decide)⟩

/-- C2 counterexample: on a token sequence that starts with a connector,
`parse` succeeds with a top-level `Action` - the claim that it never
succeeds with a Condition or Action as the top-level value is false. -/
theorem c2_counterexample :
    parse "x" topActionTokens = .ok (.Action "it" ⟨⟨0, 1, 1⟩, ⟨5, 1, 6⟩⟩) := by
  simp only [parse, initialFuel, topActionTokens]
  norm_num
  rw [parseNode]
  simp [parseChildren, parse_string, prevTok, isWordKind]

/-- C2 (amended): when the token sequence starts with a STRING token (as
every tokenizer-produced sequence does), `parse` either returns a Root
carrying that token's lexeme as file name, or fails with a structural
error; it never succeeds with a Condition or Action. -/
theorem c2_parse_root_shape (text : String) (tokens : List Token) (t : Token)
    (h0 : tokens.get? 0 = some t) (hk : t.kind = .STRING) :
    (∃ asts sp, parse text tokens = .ok (.Root t.lexeme asts sp)) ∨
    (∃ e, parse text tokens = .err e) := by
  have hne : tokens ≠ [] := by
    intro hemp
    rw [hemp] at h0
    cases h0
  have h := (parse_total_aux (initialFuel tokens) text tokens 0 hne (Nat.zero_le _)).1
    (by unfold initialFuel; omega)
  rcases h with ⟨ast, j, hpn, -, -⟩ | ⟨e, hpn⟩
  · left
    cases ast with
    | Root name asts sp =>
      obtain ⟨-, t', fuel', ht', -, hname, -, -, -⟩ := parseNode_ok_root hpn
      have htt : t' = t := Option.some.inj (ht'.symm.trans h0)
      subst htt
      exact ⟨asts, sp, by unfold parse; rw [hpn, hname]⟩
    | Condition title asts sp =>
      obtain ⟨t', next, prev, fuel', ht', hk', -, -, -, -, -, -⟩ :=
        parseNode_ok_condition hpn
      have htt : t' = t := Option.some.inj (ht'.symm.trans h0)
      subst htt
      rcases hk' with hcontra | hcontra <;> rw [hk] at hcontra <;> cases hcontra
    | Action title sp =>
      obtain ⟨t', prev, ht', hk', -, -⟩ := parseNode_ok_action hpn
      have htt : t' = t := Option.some.inj (ht'.symm.trans h0)
      subst htt
      rcases hk' with hcontra | hcontra <;> rw [hk] at hcontra <;> cases hcontra
  · exact Or.inr ⟨e, by unfold parse; rw [hpn]⟩

/-- Witness for C2 at a concrete STRING-first token sequence. -/
theorem c2_witness :
    (rootOnlyTokens.get? 0 = some fooToken) ∧ (fooToken.kind = .STRING) ∧
    ((∃ asts sp, parse "foo" rootOnlyTokens = .ok (.Root fooToken.lexeme asts sp)) ∨
      (∃ e, parse "foo" rootOnlyTokens = .err e)) :=
  ⟨rfl, rfl, c2_parse_root_shape "foo" rootOnlyTokens fooToken rfl rfl⟩

/-- C1 (amended): for every Condition node built by the parser, every child
in its asts sequence starts at a column strictly greater than the
Condition's connector column, and its child loop ends exactly at the first
token at column ≤ that column or at end of input; the Root's child loop has
no column test and ends only at end of input. -/
theorem c1_indentation_law :
    (∀ (text : String) (tokens : List Token) (fuel i : Nat) (t : Token)
        (title : String) (asts : List Ast) (sp : Span) (j : Nat),
      tokens.get? i = some t →
      parseNode text tokens fuel i = .ok (.Condition title asts sp, j) →
      (∀ a ∈ asts, t.span.start.column < (Ast.span a).start.column) ∧
      (tokens.get? j = none ∨
        ∃ u, tokens.get? j = some u ∧ u.span.start.column ≤ t.span.start.column)) ∧
    (∀ (text : String) (tokens : List Token) (fuel i : Nat)
        (name : String) (asts : List Ast) (sp : Span) (j : Nat),
      parseNode text tokens fuel i = .ok (.Root name asts sp, j) →
      tokens.get? j = none) := by
  constructor
  · intro text tokens fuel i t title asts sp j hgi hpn
    obtain ⟨t', next, prev, fuel', ht', -, -, -, -, hpc, -, -⟩ :=
      parseNode_ok_condition hpn
    have htt : t' = t := Option.some.inj (ht'.symm.trans hgi)
    subst htt
    exact parseChildren_cols fuel' hpc
      (by intro a ha; exact absurd ha (List.not_mem_nil a))
  · intro text tokens fuel i name asts sp j hpn
    obtain ⟨-, t', fuel', -, -, -, -, hpc, -⟩ := parseNode_ok_root hpn
    exact parseChildren_none_end fuel' hpc

set_option maxHeartbeats 1000000 in
/-- C1 counterexample: the Root's child collection has no column guard, so
a file-name token at column 5 happily receives a child starting at
column 1 - the claimed strict-increase law fails for Root. -/
theorem c1_counterexample :
    parse "x" shallowRootTokens = .ok shallowRoot ∧
    (Ast.span shallowChild).start.column < (Ast.span shallowRoot).start.column := by
  constructor
  · simp only [parse, initialFuel, shallowRootTokens]
    norm_num
    rw [parseNode]
    simp [parseNode, parseChildren, parse_string, prevTok, shallowRoot, shallowChild,
      Ast.span, isWordKind]
  · decide

/-- Witness for C1 at concrete Condition and Root parses. -/
theorem c1_witness :
    (condTokens.get? 0 = some ⟨.CORNER, "L", ⟨⟨0, 1, 1⟩, ⟨0, 1, 1⟩⟩⟩) ∧
    (parseNode "x" condTokens 3 0 =
      .ok (.Condition "when" [.Action "it" ⟨⟨12, 2, 4⟩, ⟨17, 2, 9⟩⟩]
        ⟨⟨0, 1, 1⟩, ⟨17, 2, 9⟩⟩, 4)) ∧
    ((∀ a ∈ [Ast.Action "it" ⟨⟨12, 2, 4⟩, ⟨17, 2, 9⟩⟩],
        1 < (Ast.span a).start.column) ∧
      (condTokens.get? 4 = none ∨
        ∃ u, condTokens.get? 4 = some u ∧ u.span.start.column ≤ 1)) ∧
    (parseNode "foo" rootOnlyTokens 2 0 =
      .ok (.Root "foo" [] ⟨⟨0, 1, 1⟩, ⟨2, 1, 3⟩⟩, 1)) ∧
    (rootOnlyTokens.get? 1 = none) := by
  have h1 : parseNode "x" condTokens 3 0 =
      .ok (.Condition "when" [.Action "it" ⟨⟨12, 2, 4⟩, ⟨17, 2, 9⟩⟩]
        ⟨⟨0, 1, 1⟩, ⟨17, 2, 9⟩⟩, 4) := by
    rw [parseNode]
    simp [condTokens, parseNode, parseChildren, parse_string, prevTok, isWordKind]
  have h2 : parseNode "foo" rootOnlyTokens 2 0 =
      .ok (.Root "foo" [] ⟨⟨0, 1, 1⟩, ⟨2, 1, 3⟩⟩, 1) := by
    rw [parseNode]
    simp [rootOnlyTokens, fooToken, parseNode, parseChildren, parse_string, prevTok,
      isWordKind]
  refine ⟨rfl, h1, ?_, h2, rfl⟩
  exact c1_indentation_law.1 "x" condTokens 3 0
    ⟨.CORNER, "L", ⟨⟨0, 1, 1⟩, ⟨0, 1, 1⟩⟩⟩ "when"
    [.Action "it" ⟨⟨12, 2, 4⟩, ⟨17, 2, 9⟩⟩] ⟨⟨0, 1, 1⟩, ⟨17, 2, 9⟩⟩ 4 rfl h1

end Bulloak
namespace Bulloak

/-- C5: from the keyword token at cursor `k`, `parse_string` greedily
consumes the run of STRING/IT/WHEN tokens, space-joining their lexemes onto
the keyword's lexeme, stops at the first token of another kind or at end of
input, and leaves the terminating token unconsumed (the final cursor points
at it). -/
theorem c5_parse_string (tokens : List Token) (k : Nat) (kw : Token)
    (hk : tokens.get? k = some kw) :
    k < (parse_string tokens k kw.lexeme).2 ∧
    (parse_string tokens k kw.lexeme).2 ≤ tokens.length ∧
    (∀ m, k < m → m < (parse_string tokens k kw.lexeme).2 →
      ∃ tok, tokens.get? m = some tok ∧ isWordKind tok.kind = true) ∧
    (∀ tok, tokens.get? (parse_string tokens k kw.lexeme).2 = some tok →
      isWordKind tok.kind = false) ∧
    (parse_string tokens k kw.lexeme).1 =
      kw.lexeme ++ strConcat
        (((tokens.drop (k + 1)).take
          ((parse_string tokens k kw.lexeme).2 - (k + 1))).map
          (fun tok => " " ++ tok.lexeme)) :=
  parse_string_spec tokens tokens.length k kw.lexeme (Nat.sub_le _ _)
    (List.get?_eq_some.mp hk).1

/-- Witness for C5 at a concrete keyword position. -/
theorem c5_witness :
    (condTokens.get? 1 = some ⟨.WHEN, "when", ⟨⟨4, 1, 5⟩, ⟨7, 1, 8⟩⟩⟩) ∧
    (1 < (parse_string condTokens 1 "when").2 ∧
     (parse_string condTokens 1 "when").2 ≤ condTokens.length ∧
     (∀ m, 1 < m → m < (parse_string condTokens 1 "when").2 →
       ∃ tok, condTokens.get? m = some tok ∧ isWordKind tok.kind = true) ∧
     (∀ tok, condTokens.get? (parse_string condTokens 1 "when").2 = some tok →
       isWordKind tok.kind = false) ∧
     (parse_string condTokens 1 "when").1 =
       "when" ++ strConcat
         (((condTokens.drop (1 + 1)).take
           ((parse_string condTokens 1 "when").2 - (1 + 1))).map
           (fun tok => " " ++ tok.lexeme))) :=
  ⟨rfl, c5_parse_string condTokens 1 ⟨.WHEN, "when", ⟨⟨4, 1, 5⟩, ⟨7, 1, 8⟩⟩⟩ rfl⟩

/-- C6: every Condition and Action node the parser produces has a span from
its connector token's start to the end of the last token consumed for that
node (the token before the final cursor); and a root-only input (a single
STRING token) parses to a Root with no children whose span equals the
file-name token's span. -/
theorem c6_spans :
    (∀ (text : String) (tokens : List Token) (fuel i : Nat)
        (title : String) (sp : Span) (j : Nat),
      parseNode text tokens fuel i = .ok (.Action title sp, j) →
      ∃ t prev, tokens.get? i = some t ∧ (t.kind = .TEE ∨ t.kind = .CORNER) ∧
        prevTok tokens j = some prev ∧ sp = ⟨t.span.start, prev.span.stop⟩) ∧
    (∀ (text : String) (tokens : List Token) (fuel i : Nat)
        (title : String) (asts : List Ast) (sp : Span) (j : Nat),
      parseNode text tokens fuel i = .ok (.Condition title asts sp, j) →
      ∃ t prev, tokens.get? i = some t ∧ (t.kind = .TEE ∨ t.kind = .CORNER) ∧
        prevTok tokens j = some prev ∧ sp = ⟨t.span.start, prev.span.stop⟩) ∧
    (∀ (text : String) (t : Token), t.kind = .STRING →
      parse text [t] = .ok (.Root t.lexeme [] t.span)) := by
  refine ⟨?_, ?_, ?_⟩
  · intro text tokens fuel i title sp j h
    exact parseNode_ok_action h
  · intro text tokens fuel i title asts sp j h
    obtain ⟨t, next, prev, fuel', ht, hk, -, -, -, -, hprev, hsp⟩ :=
      parseNode_ok_condition h
    exact ⟨t, prev, ht, hk, hprev, hsp⟩
  · intro text t hk
    have h4 : initialFuel [t] = 3 + 1 := rfl
    unfold parse
    rw [h4, parseNode_string0_eq (show [t].get? 0 = some t from rfl) hk]
    rfl

/-- Witness for C6 at concrete Action, Condition and root-only parses. -/
theorem c6_witness :
    (parseNode "x" topActionTokens 4 0 =
      .ok (.Action "it" ⟨⟨0, 1, 1⟩, ⟨5, 1, 6⟩⟩, 2)) ∧
    (∃ t prev, topActionTokens.get? 0 = some t ∧
      (t.kind = .TEE ∨ t.kind = .CORNER) ∧
      prevTok topActionTokens 2 = some prev ∧
      (⟨⟨0, 1, 1⟩, ⟨5, 1, 6⟩⟩ : Span) = ⟨t.span.start, prev.span.stop⟩) ∧
    (parseNode "x" condTokens 3 0 =
      .ok (.Condition "when" [.Action "it" ⟨⟨12, 2, 4⟩, ⟨17, 2, 9⟩⟩]
        ⟨⟨0, 1, 1⟩, ⟨17, 2, 9⟩⟩, 4)) ∧
    (∃ t prev, condTokens.get? 0 = some t ∧
      (t.kind = .TEE ∨ t.kind = .CORNER) ∧
      prevTok condTokens 4 = some prev ∧
      (⟨⟨0, 1, 1⟩, ⟨17, 2, 9⟩⟩ : Span) = ⟨t.span.start, prev.span.stop⟩) ∧
    (fooToken.kind = .STRING) ∧
    (parse "foo" [fooToken] = .ok (.Root fooToken.lexeme [] fooToken.span)) := by
  have h1 : parseNode "x" topActionTokens 4 0 =
      .ok (.Action "it" ⟨⟨0, 1, 1⟩, ⟨5, 1, 6⟩⟩, 2) := by
    rw [parseNode]
    simp [topActionTokens, parseNode, parseChildren, parse_string, prevTok, isWordKind]
  have h2 : parseNode "x" condTokens 3 0 =
      .ok (.Condition "when" [.Action "it" ⟨⟨12, 2, 4⟩, ⟨17, 2, 9⟩⟩]
        ⟨⟨0, 1, 1⟩, ⟨17, 2, 9⟩⟩, 4) := by
    rw [parseNode]
    simp [condTokens, parseNode, parseChildren, parse_string, prevTok, isWordKind]
  exact ⟨h1, c6_spans.1 "x" topActionTokens 4 0 "it" ⟨⟨0, 1, 1⟩, ⟨5, 1, 6⟩⟩ 2 h1,
    h2, c6_spans.2.1 "x" condTokens 3 0 "when" [.Action "it" ⟨⟨12, 2, 4⟩, ⟨17, 2, 9⟩⟩]
      ⟨⟨0, 1, 1⟩, ⟨17, 2, 9⟩⟩ 4 h2,
    rfl, c6_spans.2.2 "foo" fooToken rfl⟩

/-- C7: a STRING at any cursor other than 0 fails with `UnexpectedString`
at that token's span; a WHEN or IT where a connector is expected fails with
`UnexpectedWhen`/`UnexpectedIt` at that token's span; any token other than
IT or WHEN right after a consumed connector fails with `UnexpectedToken` at
the connector's span. -/
theorem c7_error_dispatch :
    (∀ (text : String) (tokens : List Token) (fuel i : Nat) (t : Token),
      tokens.get? i = some t → t.kind = .STRING → i ≠ 0 →
      parseNode text tokens (fuel + 1) i = .err ⟨.UnexpectedString, text, t.span⟩) ∧
    (∀ (text : String) (tokens : List Token) (fuel i : Nat) (t : Token),
      tokens.get? i = some t → t.kind = .WHEN →
      parseNode text tokens (fuel + 1) i = .err ⟨.UnexpectedWhen, text, t.span⟩) ∧
    (∀ (text : String) (tokens : List Token) (fuel i : Nat) (t : Token),
      tokens.get? i = some t → t.kind = .IT →
      parseNode text tokens (fuel + 1) i = .err ⟨.UnexpectedIt, text, t.span⟩) ∧
    (∀ (text : String) (tokens : List Token) (fuel i : Nat) (t next : Token),
      tokens.get? i = some t → (t.kind = .TEE ∨ t.kind = .CORNER) →
      tokens.get? (i + 1) = some next → next.kind ≠ .IT → next.kind ≠ .WHEN →
      parseNode text tokens (fuel + 1) i = .err ⟨.UnexpectedToken, text, t.span⟩) :=
  ⟨fun _ _ _ _ _ h1 h2 h3 => parseNode_err_string h1 h2 h3,
   fun _ _ _ _ _ h1 h2 => parseNode_err_when h1 h2,
   fun _ _ _ _ _ h1 h2 => parseNode_err_it h1 h2,
   fun _ _ _ _ _ _ h1 h2 h3 h4 h5 => parseNode_err_token h1 h2 h3 h4 h5⟩

/-- Witness for C7 exercising all four dispatch arms. -/
theorem c7_witness :
    (c7Tokens.get? 1 = some ⟨.STRING, "s", ⟨⟨5, 1, 6⟩, ⟨5, 1, 6⟩⟩⟩) ∧
    (parseNode "x" c7Tokens 1 1 =
      .err ⟨.UnexpectedString, "x", ⟨⟨5, 1, 6⟩, ⟨5, 1, 6⟩⟩⟩) ∧
    (parseNode "x" c7Tokens 1 0 =
      .err ⟨.UnexpectedWhen, "x", ⟨⟨0, 1, 1⟩, ⟨3, 1, 4⟩⟩⟩) ∧
    (parseNode "x" c7Tokens 1 4 =
      .err ⟨.UnexpectedIt, "x", ⟨⟨11, 1, 12⟩, ⟨12, 1, 13⟩⟩⟩) ∧
    (parseNode "x" c7Tokens 1 2 =
      .err ⟨.UnexpectedToken, "x", ⟨⟨7, 1, 8⟩, ⟨7, 1, 8⟩⟩⟩) :=
  ⟨rfl,
   c7_error_dispatch.1 "x" c7Tokens 0 1 ⟨.STRING, "s", ⟨⟨5, 1, 6⟩, ⟨5, 1, 6⟩⟩⟩
     rfl rfl (by decide),
   c7_error_dispatch.2.1 "x" c7Tokens 0 0 ⟨.WHEN, "when", ⟨⟨0, 1, 1⟩, ⟨3, 1, 4⟩⟩⟩
     rfl rfl,
   c7_error_dispatch.2.2.1 "x" c7Tokens 0 4 ⟨.IT, "it", ⟨⟨11, 1, 12⟩, ⟨12, 1, 13⟩⟩⟩
     rfl rfl,
   c7_error_dispatch.2.2.2 "x" c7Tokens 0 2 ⟨.TEE, "T", ⟨⟨7, 1, 8⟩, ⟨7, 1, 8⟩⟩⟩
     ⟨.CORNER, "L", ⟨⟨9, 1, 10⟩, ⟨9, 1, 10⟩⟩⟩ rfl (Or.inl rfl) rfl
     (by decide) (by decide)⟩

/-- C8 (amended): whenever the parser requires a token and none remains -
at the top of `_parse` with a NON-EMPTY stream, or right after a connector -
it returns an `UnexpectedEof` error carrying the span of the last token in
the stream. (On an empty token sequence the code panics instead: see the
counterexample.) -/
theorem c8_unexpected_eof :
    (∀ (text : String) (tokens : List Token) (fuel i : Nat),
      tokens ≠ [] → tokens.get? i = none →
      ∃ last, tokens.getLast? = some last ∧
        parseNode text tokens (fuel + 1) i = .err ⟨.UnexpectedEof, text, last.span⟩) ∧
    (∀ (text : String) (tokens : List Token) (fuel i : Nat) (t : Token),
      tokens.get? i = some t → (t.kind = .TEE ∨ t.kind = .CORNER) →
      tokens.get? (i + 1) = none →
      ∃ last, tokens.getLast? = some last ∧
        parseNode text tokens (fuel + 1) i = .err ⟨.UnexpectedEof, text, last.span⟩) := by
  constructor
  · intro text tokens fuel i hne hgi
    cases hgl : tokens.getLast? with
    | none => exact absurd (List.getLast?_eq_none_iff.mp hgl) hne
    | some last => exact ⟨last, rfl, parseNode_eof hgi hgl⟩
  · intro text tokens fuel i t hgi hk hgn
    have hne : tokens ≠ [] := by
      intro hemp
      rw [hemp] at hgi
      cases hgi
    cases hgl : tokens.getLast? with
    | none => exact absurd (List.getLast?_eq_none_iff.mp hgl) hne
    | some last => exact ⟨last, rfl, parseNode_conn_eof hgi hk hgn hgl⟩

/-- C8 counterexample: on an empty token sequence the code does not return
an `UnexpectedEof` error value - `tokens.last().unwrap()` panics, modelled
as `PResult.panic` (a constructor distinct from `PResult.err`). -/
theorem c8_counterexample :
    parse "" ([] : List Token) = PResult.panic := rfl

/-- Witness for C8 at concrete truncated inputs. -/
theorem c8_witness :
    (topActionTokens ≠ []) ∧ (topActionTokens.get? 5 = none) ∧
    (∃ last, topActionTokens.getLast? = some last ∧
      parseNode "x" topActionTokens 1 5 = .err ⟨.UnexpectedEof, "x", last.span⟩) ∧
    (lonelyCorner.get? 0 = some ⟨.CORNER, "L", ⟨⟨0, 1, 1⟩, ⟨0, 1, 1⟩⟩⟩) ∧
    (lonelyCorner.get? 1 = none) ∧
    (∃ last, lonelyCorner.getLast? = some last ∧
      parseNode "x" lonelyCorner 1 0 = .err ⟨.UnexpectedEof, "x", last.span⟩) :=
  ⟨by decide, rfl,
   c8_unexpected_eof.1 "x" topActionTokens 0 5 (by decide) rfl,
   rfl, rfl,
   c8_unexpected_eof.2 "x" lonelyCorner 0 0 ⟨.CORNER, "L", ⟨⟨0, 1, 1⟩, ⟨0, 1, 1⟩⟩⟩
     rfl (Or.inr rfl) rfl⟩

end Bulloak
